import Mathlib

/-!
Verification of the cron analysis pipeline (`analyze-cron.py`).

A shallow embedding of the schedule-discovery and aggregation pipeline.
Python `dict`s are modelled as insertion-ordered association lists
(`List (κ × β)`); external collaborators (the cron iterator `croniter`,
the description renderers `pretty_cron.prettify_cron` and
`cron_descriptor.get_description`, the GitHub search/clone transport and
the file system) are passed in as explicit oracle parameters; raised
Python exceptions are modelled with `Except Unit`.
-/

set_option autoImplicit false
set_option synthInstance.maxSize 2000

namespace CronAnalysis

variable {κ : Type} {β : Type} [DecidableEq κ]

/-- Reading `m[k]` / `k in m` on a Python dict modelled as an association list:
the value at the first occurrence of key `k`. -/
def lookupKV (m : List (κ × β)) (k : κ) : Option β :=
  match m with
  | [] => none
  | p :: rest => if p.1 = k then some p.2 else lookupKV rest k

/-- Assignment `m[k] = v` on a Python dict: overwrite in place when the key is present
(keeping its position), append at the end otherwise. -/
def setKV (m : List (κ × β)) (k : κ) (v : β) : List (κ × β) :=
  match m with
  | [] => [(k, v)]
  | p :: rest => if p.1 = k then (k, v) :: rest else p :: setKV rest k v

/-- The `if k not in m: m[k] = 0` / `m[k] += n` counting idiom. -/
def bump (m : List (κ × Nat)) (k : κ) (n : Nat) : List (κ × Nat) :=
  match lookupKV m k with
  | none => setKV m k n
  | some c => setKV m k (c + n)

/-- Python `dict.update`: fold the new entries over the old dict,
overwriting values of existing keys and appending new keys. -/
def dictUpdate (c n : List (κ × β)) : List (κ × β) :=
  n.foldl (fun acc p => setKV acc p.1 p.2) c

/-- The keys of a dict, in order. -/
def keysOf (m : List (κ × β)) : List κ :=
  m.map Prod.fst

/-- The value at the *last* occurrence of key `k` (dicts built by repeated
assignment keep the last written value). -/
def lookupLast (m : List (κ × β)) (k : κ) : Option β :=
  match m with
  | [] => none
  | p :: rest =>
      match lookupLast rest k with
      | some v => some v
      | none => if p.1 = k then some p.2 else none

/-- Predicate `keysNodup m` says the dict model `m` has no duplicate keys, as every
actual Python dict does. -/
def keysNodup (m : List (κ × β)) : Prop :=
  (keysOf m).Nodup

instance keysNodupDecidable (m : List (κ × β)) : Decidable (keysNodup m) :=
  inferInstanceAs (Decidable (keysOf m).Nodup)

/-! ## String helpers

Kernel-computable models of the Python string operations the script uses
(`str.replace("?", "*")`, `str.strip()`, `str.startswith`, `x in s`,
string comparison, `re.search("[0-9]{2}:[0-9]{2}", s)`). -/

/-- Normalization `entry["cron"].replace("?", "*")`: the pattern is a single character, so
the replacement is a character map. -/
def replaceQ (s : String) : String :=
  String.mk (s.data.map (fun c => if c = '?' then '*' else c))

/-- Python `str.strip()`: drop whitespace from both ends. -/
def pyStrip (s : String) : String :=
  String.mk (((s.data.dropWhile Char.isWhitespace).reverse.dropWhile
    Char.isWhitespace).reverse)

/-- Python `s.startswith(pat)`. -/
def strStartsWith (s pat : String) : Bool :=
  pat.data.isPrefixOf s.data

def isSubAux (pat : List Char) : List Char → Bool
  | [] => pat.isPrefixOf []
  | c :: rest => pat.isPrefixOf (c :: rest) || isSubAux pat rest

/-- Python `pat in hay` on strings: substring test. -/
def substrB (hay pat : String) : Bool :=
  isSubAux pat.data hay.data

/-- Lexicographic code-point comparison, Python's `<=` on strings. -/
def charListLe : List Char → List Char → Bool
  | [], _ => true
  | _ :: _, [] => false
  | a :: as, b :: bs => if a < b then true else if b < a then false else charListLe as bs

def strLe (a b : String) : Bool :=
  charListLe a.data b.data

/-- Search `re.search("[0-9]{2}:[0-9]{2}", s)`: the leftmost two-digit,
colon, two-digit window, if any. -/
def findHHMM : List Char → Option String
  | a :: b :: c :: d :: e :: rest =>
      if a.isDigit && b.isDigit && c = ':' && d.isDigit && e.isDigit then
        some (String.mk [a, b, c, d, e])
      else findHHMM (b :: c :: d :: e :: rest)
  | _ => none

/-- Stable insertion into a sorted list: `x` goes before the first element it
may precede, so elements comparing equal keep their original order. -/
def insertSorted {α : Type} (le : α → α → Bool) (x : α) : List α → List α
  | [] => [x]
  | y :: rest => if le x y then x :: y :: rest else y :: insertSorted le x rest

/-- Python `sorted`: a stable sort (any stable sort computes the same list). -/
def stableSort {α : Type} (le : α → α → Bool) : List α → List α
  | [] => []
  | x :: rest => insertSorted le x (stableSort le rest)

/-! ## Data model -/

/-- One schedule entry from a workflow's `schedule:` list: a mapping with
(among other keys) a `"cron"` expression. -/
abbrev Entry := List (String × String)

/-- One repository's files: path → list of schedule entries. -/
abbrev FileMap := List (String × List Entry)

/-- The corpus (`crons.json` / the `crons` dict): repository full name →
file map. -/
abbrev Crons := List (String × FileMap)

/-- Line 351, `crons.update(download_repos(code_search))`: a plain
`dict.update` of the corpus, keyed by repository full name; the value type of
a repository (its whole per-file dict) is opaque to the merge. -/
def mergeCrons {β : Type} (c n : List (String × β)) : List (String × β) :=
  dictUpdate c n

/-- Embeds `read_json`: `open(path)` raises if the file is absent (there is no
fallback), otherwise the parsed document is returned.  The file system is an
oracle from paths to parsed corpora. -/
def read_json (fs : String → Option Crons) (path : String) : Except Unit Crons :=
  match fs path with
  | none => Except.error ()
  | some content => Except.ok content

/-- The corpus-loading step of `run_analysis` (line 347): a bare `read_json`
on `data/crons.json`, with no exception handling around it. -/
def run_analysis_load (fs : String → Option Crons) : Except Unit Crons :=
  read_json fs "data/crons.json"

/-! ## `convert_to_frequency` -/

def convert_to_frequency (seconds : Nat) : String :=
  let seconds_in_week := 60 * 60 * 24 * 7
  let seconds_in_day := 60 * 60 * 24
  let seconds_in_hour := 60 * 60
  let seconds_in_minute := 60
  let weeks := seconds / seconds_in_week
  let days := (seconds - weeks * seconds_in_week) / seconds_in_day
  let hours := (seconds - weeks * seconds_in_week - days * seconds_in_day) /
    seconds_in_hour
  let minutes := (seconds - weeks * seconds_in_week - days * seconds_in_day -
    hours * seconds_in_hour) / seconds_in_minute
  let result := if weeks ≠ 0 then toString weeks ++ " weeks" else ""
  let result := if days ≠ 0 then result ++ " " ++ toString days ++ " days" else result
  let result := if hours ≠ 0 then result ++ " " ++ toString hours ++ " hours" else result
  let result := if minutes ≠ 0 then result ++ " " ++ toString minutes ++ " minutes" else result
  pyStrip result

/-! ## YAML model and `download_repos` extraction -/

/-- A YAML mapping key: the parser reads an unquoted `on` as the boolean
`True`, so keys are booleans or strings. -/
inductive YKey where
  | kBool (b : Bool)
  | kStr (s : String)
deriving DecidableEq

/-- A parsed YAML value. -/
inductive YVal where
  | yStr (s : String)
  | yBool (b : Bool)
  | yNull
  | yList (l : List YVal)
  | yMap (m : List (YKey × YVal))

/-- Python `v == "schedule"` for a YAML value (only the string is equal). -/
def isScheduleStr : YVal → Bool
  | .yStr s => s = "schedule"
  | _ => false

/-- Lines 183-191: the trigger lookup of `download_repos`.
`key = True`; if `True` is not a key but `"on"` is, `key = "on"`; then
`if "schedule" in content[key]` stores `content[key]["schedule"]`.
`.error ()` models an exception reaching the blanket `except:` handler of
the caller (`content[key]` raising `KeyError` when neither key is present,
or `in` / indexing raising `TypeError` on a non-mapping trigger section);
`.ok none` models falling through with no record stored. -/
def extract_schedule (content : List (YKey × YVal)) : Except Unit (Option YVal) :=
  let key : YKey := YKey.kBool true
  let key := if (lookupKV content key).isNone && !(lookupKV content (YKey.kStr "on")).isNone
    then YKey.kStr "on" else key
  match lookupKV content key with
  | none => Except.error ()
  | some v =>
      match v with
      | .yMap m =>
          match lookupKV m (YKey.kStr "schedule") with
          | some s => Except.ok (some s)
          | none => Except.ok none
      | .yStr s => if substrB s "schedule" then Except.error () else Except.ok none
      | .yList l => if l.any isScheduleStr then Except.error () else Except.ok none
      | _ => Except.error ()

/-- One code-search hit together with the outcomes of its external calls:
`clone_ok` is whether `git clone` succeeded (vs `git.GitCommandError`), and
`parsed` is the result of `read_yaml` on the hit's file (`none` models a
raised read/parse exception). -/
structure SearchHit where
  repo_full_name : String
  path : String
  clone_ok : Bool
  parsed : Option (List (YKey × YVal))

/-- The per-repository dict `download_repos` builds: path → the raw
`schedule` subsection stored at line 188. -/
abbrev RawFileMap := List (String × YVal)

abbrev RawCrons := List (String × RawFileMap)

/-- Assignment `crons[repo_name][filename.path] = value` (the repo key is present). -/
def setFileRecord (crons : RawCrons) (repo path : String) (v : YVal) : RawCrons :=
  crons.map (fun q => if q.1 = repo then (q.1, setKV q.2 path v) else q)

/-- One iteration of the `download_repos` loop (lines 161-191). -/
def download_step (crons : RawCrons) (hit : SearchHit) : RawCrons :=
  let crons := if (lookupKV crons hit.repo_full_name).isNone then
    crons ++ [(hit.repo_full_name, [])] else crons
  if hit.clone_ok then
    match hit.parsed with
    | none => crons
    | some content =>
        match extract_schedule content with
        | Except.error _ => crons
        | Except.ok none => crons
        | Except.ok (some s) => setFileRecord crons hit.repo_full_name hit.path s
  else crons

/-- Embeds `download_repos`: fold the loop body over the search results, starting
from the empty lookup. -/
def download_repos (hits : List SearchHit) : RawCrons :=
  hits.foldl download_step []

/-- Whether a hit actually stores a file record (clone succeeded, the file
parsed, and extraction found a `schedule` subsection). -/
def yieldsRecord (hit : SearchHit) : Bool :=
  hit.clone_ok &&
    match hit.parsed with
    | none => false
    | some content =>
        match extract_schedule content with
        | Except.ok (some _) => true
        | _ => false

/-! ## `calculate_frequencies` (lines 195-228)

The cron iterator is an oracle `delta : String → Option Nat` giving, for an
expression the library accepts, the difference in seconds between its next
two fire timestamps (`int(cron.get_next())` twice); `none` models `croniter`
raising on an expression it rejects.  Nothing in the source catches such an
exception, so it propagates (`Except.error`).  The loop body assigns
`entry["cron"] = entry["cron"].replace("?", "*")`, mutating the corpus in
place, so the embedding returns the updated corpus alongside the tallies. -/

def processFreqEntry (delta : String → Option Nat) (e : Entry)
    (differences : List (Nat × Nat)) : Except Unit (Entry × List (Nat × Nat)) :=
  match lookupKV e "cron" with
  | none => Except.ok (e, differences)
  | some c =>
      let c' := replaceQ c
      let e' := setKV e "cron" c'
      match delta c' with
      | none => Except.error ()
      | some d => Except.ok (e', bump differences d 1)

def processFreqList (delta : String → Option Nat) :
    List Entry → List (Nat × Nat) → Except Unit (List Entry × List (Nat × Nat))
  | [], differences => Except.ok ([], differences)
  | e :: rest, differences => do
      let (e', differences) ← processFreqEntry delta e differences
      let (rest', differences) ← processFreqList delta rest differences
      Except.ok (e' :: rest', differences)

def processFreqFiles (delta : String → Option Nat) :
    FileMap → List (Nat × Nat) → Except Unit (FileMap × List (Nat × Nat))
  | [], differences => Except.ok ([], differences)
  | (path, cronlist) :: rest, differences => do
      let (cronlist', differences) ← processFreqList delta cronlist differences
      let (rest', differences) ← processFreqFiles delta rest differences
      Except.ok ((path, cronlist') :: rest', differences)

def processFreqCrons (delta : String → Option Nat) :
    Crons → List (Nat × Nat) → Except Unit (Crons × List (Nat × Nat))
  | [], differences => Except.ok ([], differences)
  | (repo, files) :: rest, differences => do
      let (files', differences) ← processFreqFiles delta files differences
      let (rest', differences) ← processFreqCrons delta rest differences
      Except.ok ((repo, files') :: rest', differences)

/-- The `{"by_freq": ..., "by_count": ...}` result object. -/
structure FreqDiffs where
  by_freq : List (String × Nat)
  by_count : List (String × Nat)

/-- Lines 222-227: pour a sorted `(seconds, count)` list into a dict keyed by
the human-readable phrase; a later pair whose phrase collides simply
overwrites the earlier value. -/
def buildView (l : List (Nat × Nat)) : List (String × Nat) :=
  l.foldl (fun acc d => setKV acc (convert_to_frequency d.1) d.2) []

def calculate_frequencies (delta : String → Option Nat) (crons : Crons) :
    Except Unit (Crons × FreqDiffs) := do
  let (crons', differences) ← processFreqCrons delta crons []
  let by_freq := stableSort (fun a b => decide (b.1 ≤ a.1)) differences
  let by_count := stableSort (fun a b => decide (b.2 ≤ a.2)) differences
  Except.ok (crons', { by_freq := buildView by_freq, by_count := buildView by_count })

/-! ## `calculate_times_descriptions` (lines 231-269)

The two description renderers are oracles (`none` models a raise, which
nothing in the function catches).  This function does not write back into
the corpus. -/

def describeCron (pretty descOracle : String → Option String) (c : String) :
    Except Unit String :=
  match pretty c with
  | none => Except.error ()
  | some d =>
      if strStartsWith d "At" then Except.ok d
      else
        match descOracle c with
        | none => Except.error ()
        | some d2 => Except.ok d2

def processTDEntry (pretty descOracle : String → Option String) (e : Entry)
    (times descriptions : List (String × Nat)) :
    Except Unit (List (String × Nat) × List (String × Nat)) :=
  match lookupKV e "cron" with
  | none => Except.ok (times, descriptions)
  | some c => do
      let d ← describeCron pretty descOracle c
      let descriptions := bump descriptions d 1
      match findHHMM d.data with
      | none => Except.ok (times, descriptions)
      | some t => Except.ok (bump times t 1, descriptions)

def processTDList (pretty descOracle : String → Option String) :
    List Entry → List (String × Nat) → List (String × Nat) →
    Except Unit (List (String × Nat) × List (String × Nat))
  | [], times, descriptions => Except.ok (times, descriptions)
  | e :: rest, times, descriptions => do
      let (times, descriptions) ← processTDEntry pretty descOracle e times descriptions
      processTDList pretty descOracle rest times descriptions

def processTDFiles (pretty descOracle : String → Option String) :
    FileMap → List (String × Nat) → List (String × Nat) →
    Except Unit (List (String × Nat) × List (String × Nat))
  | [], times, descriptions => Except.ok (times, descriptions)
  | (_, cronlist) :: rest, times, descriptions => do
      let (times, descriptions) ← processTDList pretty descOracle cronlist times descriptions
      processTDFiles pretty descOracle rest times descriptions

def processTDCrons (pretty descOracle : String → Option String) :
    Crons → List (String × Nat) → List (String × Nat) →
    Except Unit (List (String × Nat) × List (String × Nat))
  | [], times, descriptions => Except.ok (times, descriptions)
  | (_, files) :: rest, times, descriptions => do
      let (times, descriptions) ← processTDFiles pretty descOracle files times descriptions
      processTDCrons pretty descOracle rest times descriptions

def calculate_times_descriptions (pretty descOracle : String → Option String)
    (crons : Crons) :
    Except Unit (List (String × Nat) × List (String × Nat)) := do
  let (times, descriptions) ← processTDCrons pretty descOracle crons [] []
  let ordered := stableSort (fun a b => strLe a.1 b.1) times
  let descriptions := stableSort (fun a b => decide (b.2 ≤ a.2)) descriptions
  Except.ok (ordered, descriptions)

/-! ## `calculate_day_of_week` (lines 272-300) -/

def dowKeys : List String :=
  ["day", "Sunday", "Monday", "Tuesday", "Wednesday", "Thursday", "Friday",
   "Saturday"]

def calculate_day_of_week (descriptions : List (String × Nat)) :
    List (String × Nat) :=
  let day_of_week := descriptions.foldl (fun acc p =>
    dowKeys.foldl (fun acc k =>
      let key := "every " ++ k
      if substrB p.1 key then bump acc key 1 else acc) acc) []
  stableSort (fun a b => decide (b.2 ≤ a.2)) day_of_week

/-! ## `run_common_analysis` (lines 319-339)

Persistence is a keyed document store; the embedding records the sequence of
`write_json` calls the run performs before it finishes or an uncaught
exception escapes.  Note the first write (`crons.json`) happens *before* any
aggregation. -/

inductive Artifact where
  | cronsFile (c : Crons)
  | frequenciesFile (d : FreqDiffs)
  | timesFile (t : List (String × Nat))
  | descriptionsFile (d : List (String × Nat))
  | dayOfWeekFile (d : List (String × Nat))

def artifactName : Artifact → String
  | .cronsFile _ => "crons.json"
  | .frequenciesFile _ => "frequencies.json"
  | .timesFile _ => "times.json"
  | .descriptionsFile _ => "descriptions.json"
  | .dayOfWeekFile _ => "day_of_week.json"

/-- Runs the shared analysis; returns the artifacts written (in write order)
and whether the run completed (`false` models an uncaught exception escaping
after the writes already performed). -/
def run_common_analysis (delta : String → Option Nat)
    (pretty descOracle : String → Option String) (crons : Crons) :
    List Artifact × Bool :=
  let written := [Artifact.cronsFile crons]
  match calculate_frequencies delta crons with
  | Except.error _ => (written, false)
  | Except.ok (crons', diffs) =>
      let written := written ++ [Artifact.frequenciesFile diffs]
      match calculate_times_descriptions pretty descOracle crons' with
      | Except.error _ => (written, false)
      | Except.ok (times, descriptions) =>
          let written := written ++
            [Artifact.timesFile times, Artifact.descriptionsFile descriptions]
          let day_of_week := calculate_day_of_week descriptions
          (written ++ [Artifact.dayOfWeekFile day_of_week], true)

/-! ## The rate limiter (lines 40 and 60-66)

`core_rate_limit` is read from the API exactly once, at module load
(line 40); every later query to the retrieval collaborator also reports a
current reset timestamp, but no statement in the source ever reassigns
`core_rate_limit`. -/

/-- How the stored `core_rate_limit` reset timestamp reacts to one more
collaborator query observing reset timestamp `observed`: it does not
(no assignment to `core_rate_limit` exists after line 40). -/
def update_core_rate_limit (current : Int) (observed : Int) : Int :=
  current

/-- The reset timestamp the program holds after module load (which stored
`init`) followed by the queries whose observed reset timestamps are
`observed`. -/
def stored_reset (init : Int) (observed : List Int) : Int :=
  observed.foldl update_core_rate_limit init

/-- Line 64: `sleep_time = max(0, reset_timestamp - curr_timestamp) + 5`;
`rate_limit_wait` then sleeps exactly this long. -/
def rate_limit_sleep (reset_timestamp curr_timestamp : Int) : Int :=
  max 0 (reset_timestamp - curr_timestamp) + 5

/-! ## Derived predicates used to state the theorems -/

/-- Whether an `Except` computation finished without a raised exception. -/
def exceptOk {α : Type} : Except Unit α → Bool
  | Except.ok _ => true
  | Except.error _ => false

/-- An entry passes the frequency stage without raising: either it has no
`"cron"` key (it is skipped), or the cron iterator accepts its normalized
expression. -/
def entryValid (delta : String → Option Nat) (e : Entry) : Bool :=
  match lookupKV e "cron" with
  | none => true
  | some c => (delta (replaceQ c)).isSome

/-- Every entry of the corpus passes the frequency stage. -/
def allValidB (delta : String → Option Nat) (crons : Crons) : Bool :=
  crons.all (fun rp => rp.2.all (fun fp => fp.2.all (entryValid delta)))

/-- The in-place effect of the frequency stage on one entry: its `"cron"`
value (when present) is replaced by its `?`→`*` normalization. -/
def normalizeEntry (e : Entry) : Entry :=
  match lookupKV e "cron" with
  | none => e
  | some c => setKV e "cron" (replaceQ c)

/-- Map of `normalizeEntry` over every entry of the corpus. -/
def normalizeCrons (crons : Crons) : Crons :=
  crons.map (fun rp => (rp.1, rp.2.map (fun fp => (fp.1, fp.2.map normalizeEntry))))

/-- The entries stored for a `(repository, path)` pair of the corpus. -/
def lookup2 (crons : Crons) (repo path : String) : Option (List Entry) :=
  match lookupKV crons repo with
  | none => none
  | some fm => lookupKV fm path



/-! ## Basic association-list lemmas -/

theorem lookupKV_setKV_self (m : List (κ × β)) (k : κ) (v : β) :
    lookupKV (setKV m k v) k = some v := by
  induction m with
  | nil => simp [setKV, lookupKV]
  | cons p rest ih =>
    by_cases h : p.1 = k
    · simp [setKV, h, lookupKV]
    · simp [setKV, h, lookupKV, ih]

theorem lookupKV_setKV_ne (m : List (κ × β)) (k k' : κ) (v : β) (h : k ≠ k') :
    lookupKV (setKV m k v) k' = lookupKV m k' := by
  induction m with
  | nil => simp [setKV, lookupKV, h]
  | cons p rest ih =>
    by_cases hp : p.1 = k
    · subst hp
      simp [setKV, lookupKV, h, ih]
    · simp [setKV, hp, lookupKV, ih]

theorem keysOf_setKV_mem (m : List (κ × β)) (k : κ) (v : β) :
    k ∈ keysOf m → keysOf (setKV m k v) = keysOf m := by
  induction m with
  | nil => intro h; simp [keysOf] at h
  | cons p rest ih =>
    intro h
    by_cases hp : p.1 = k
    · simp [setKV, hp, keysOf]
    · have hk : k ∈ keysOf rest := by
        simp only [keysOf, List.map_cons, List.mem_cons] at h
        rcases h with h | h
        · exact absurd h.symm hp
        · exact h
      simp only [setKV, if_neg hp, keysOf, List.map_cons, List.cons.injEq, true_and]
      exact ih hk

theorem keysOf_setKV_not_mem (m : List (κ × β)) (k : κ) (v : β) :
    k ∉ keysOf m → keysOf (setKV m k v) = keysOf m ++ [k] := by
  induction m with
  | nil => intro _; simp [setKV, keysOf]
  | cons p rest ih =>
    intro h
    simp only [keysOf, List.map_cons, List.mem_cons] at h
    push_neg at h
    have hpk : ¬p.1 = k := fun e => h.1 e.symm
    simp only [setKV, if_neg hpk, keysOf, List.map_cons, List.cons_append,
      List.cons.injEq, true_and]
    exact ih h.2

theorem keysNodup_setKV (m : List (κ × β)) (k : κ) (v : β) :
    keysNodup m → keysNodup (setKV m k v) := by
  intro h
  by_cases hk : k ∈ keysOf m
  · rw [keysNodup, keysOf_setKV_mem m k v hk]; exact h
  · rw [keysNodup, keysOf_setKV_not_mem m k v hk]
    simpa [List.nodup_append] using ⟨h, hk⟩

theorem lookupKV_eq_none_iff (m : List (κ × β)) (k : κ) :
    lookupKV m k = none ↔ k ∉ keysOf m := by
  induction m with
  | nil => simp [lookupKV, keysOf]
  | cons p rest ih =>
    by_cases hp : p.1 = k
    · simp [lookupKV, hp, keysOf]
    · simp only [lookupKV, if_neg hp, keysOf, List.map_cons, List.mem_cons, ih]
      constructor
      · rintro h (h1 | h2)
        · exact hp h1.symm
        · exact h h2
      · intro h h2
        exact h (Or.inr h2)

theorem lookupLast_eq_none_iff (m : List (κ × β)) (k : κ) :
    lookupLast m k = none ↔ k ∉ keysOf m := by
  induction m with
  | nil => simp [lookupLast, keysOf]
  | cons p rest ih =>
    have hcons : keysOf (p :: rest) = p.1 :: keysOf rest := rfl
    rw [hcons, List.mem_cons]
    cases h : lookupLast rest k with
    | some v =>
      have hk : k ∈ keysOf rest := by
        by_contra hc
        exact absurd (ih.mpr hc) (by rw [h]; exact fun hx => Option.noConfusion hx)
      simp only [lookupLast, h]
      constructor
      · exact fun hx => Option.noConfusion hx
      · intro hn; exact absurd (Or.inr hk) hn
    | none =>
      have hk : k ∉ keysOf rest := ih.mp h
      simp only [lookupLast, h]
      by_cases hp : p.1 = k
      · rw [if_pos hp]
        constructor
        · exact fun hx => Option.noConfusion hx
        · intro hn; exact absurd (Or.inl hp.symm) hn
      · rw [if_neg hp]
        constructor
        · intro _ hor
          rcases hor with h1 | h2
          · exact hp h1.symm
          · exact hk h2
        · intro _; rfl

theorem lookupLast_eq_lookupKV (m : List (κ × β)) (k : κ) :
    keysNodup m → lookupLast m k = lookupKV m k := by
  induction m with
  | nil => intro _; rfl
  | cons p rest ih =>
    intro h
    rw [keysNodup, keysOf, List.map_cons, List.nodup_cons] at h
    by_cases hp : p.1 = k
    · have hrest : lookupLast rest k = none := by
        rw [lookupLast_eq_none_iff]
        rw [← hp] at *
        exact h.1
      simp [lookupLast, hrest, lookupKV, hp]
    · rw [lookupKV, if_neg hp, ← ih h.2]
      cases hr : lookupLast rest k with
      | some v => simp [lookupLast, hr]
      | none => simp [lookupLast, hr, if_neg hp]

theorem setKV_eq_self (m : List (κ × β)) (k : κ) (v : β) :
    keysNodup m → lookupKV m k = some v → setKV m k v = m := by
  induction m with
  | nil => intro _ h; simp [lookupKV] at h
  | cons p rest ih =>
    intro hn h
    rw [keysNodup, keysOf, List.map_cons, List.nodup_cons] at hn
    by_cases hp : p.1 = k
    · rw [lookupKV, if_pos hp] at h
      have hv : v = p.2 := by injection h with h; exact h.symm
      rw [setKV, if_pos hp, hv, ← hp]
    · rw [lookupKV, if_neg hp] at h
      rw [setKV, if_neg hp, ih hn.2 h]

theorem dictUpdate_nil (c : List (κ × β)) : dictUpdate c [] = c := rfl

theorem dictUpdate_cons (c : List (κ × β)) (a : κ × β) (n : List (κ × β)) :
    dictUpdate c (a :: n) = dictUpdate (setKV c a.1 a.2) n := rfl

/-- Merging characterized by lookup: the merged dict holds the last value the
new entries assign to a key, and falls back to the old dict otherwise. -/
theorem lookupKV_dictUpdate (n c : List (κ × β)) (k : κ) :
    lookupKV (dictUpdate c n) k =
      match lookupLast n k with
      | some v => some v
      | none => lookupKV c k := by
  induction n generalizing c with
  | nil => rfl
  | cons a n ih =>
    rw [dictUpdate_cons, ih]
    cases h : lookupLast n k with
    | some v => simp [lookupLast, h]
    | none =>
      by_cases ha : a.1 = k
      · subst ha
        simp [lookupLast, h, lookupKV_setKV_self]
      · simp [lookupLast, h, if_neg ha, lookupKV_setKV_ne c a.1 k a.2 ha]

theorem keysNodup_dictUpdate (n c : List (κ × β)) :
    keysNodup c → keysNodup (dictUpdate c n) := by
  induction n generalizing c with
  | nil => intro h; exact h
  | cons a n ih =>
    intro h
    rw [dictUpdate_cons]
    exact ih _ (keysNodup_setKV c a.1 a.2 h)

theorem lookupKV_dictUpdate_not_mem (n c : List (κ × β)) (k : κ)
    (hk : k ∉ keysOf n) : lookupKV (dictUpdate c n) k = lookupKV c k := by
  rw [lookupKV_dictUpdate, (lookupLast_eq_none_iff n k).mpr hk]

/-- Idempotence of `dict.update`: updating with the same new entries twice
gives the same dict as updating once. -/
theorem dictUpdate_idem : ∀ (n c : List (κ × β)), keysNodup c → keysNodup n →
    dictUpdate (dictUpdate c n) n = dictUpdate c n := by
  intro n
  induction n with
  | nil => intro c _ _; rfl
  | cons a n ih =>
    intro c hc hn
    have hcons : keysOf (a :: n) = a.1 :: keysOf n := rfl
    rw [keysNodup, hcons, List.nodup_cons] at hn
    rw [dictUpdate_cons, dictUpdate_cons]
    have hM : lookupKV (dictUpdate (setKV c a.1 a.2) n) a.1 = some a.2 := by
      rw [lookupKV_dictUpdate, (lookupLast_eq_none_iff n a.1).mpr hn.1]
      exact lookupKV_setKV_self c a.1 a.2
    have hMnodup : keysNodup (dictUpdate (setKV c a.1 a.2) n) :=
      keysNodup_dictUpdate n _ (keysNodup_setKV c a.1 a.2 hc)
    rw [setKV_eq_self _ _ _ hMnodup hM]
    exact ih (setKV c a.1 a.2) (keysNodup_setKV c a.1 a.2 hc) hn.2

/-! # Claim theorems -/

/-! ## C8 — idempotence of the merge -/

/-- C8: merging the same discovery set `n` into a corpus `c` twice yields a
corpus identical to merging it once — no duplicate entries, no count
inflation (`mergeCrons` embeds line 351's repository-keyed `dict.update`). -/
theorem mergeCrons_idempotent (c n : Crons) (hc : keysNodup c) (hn : keysNodup n) :
    mergeCrons (mergeCrons c n) n = mergeCrons c n :=
  dictUpdate_idem n c hc hn

/-- C8 witness at a concrete corpus and discovery set. -/
theorem mergeCrons_idempotent_witness :
    keysNodup ([("org/a", [("f.yml", [[("cron", "0 0 * * *")]])])] : Crons) ∧
    keysNodup ([("org/a", [("g.yml", [])]), ("org/b", [])] : Crons) ∧
    mergeCrons (mergeCrons [("org/a", [("f.yml", [[("cron", "0 0 * * *")]])])]
        [("org/a", [("g.yml", [])]), ("org/b", [])])
        [("org/a", [("g.yml", [])]), ("org/b", [])] =
      mergeCrons [("org/a", [("f.yml", [[("cron", "0 0 * * *")]])])]
        [("org/a", [("g.yml", [])]), ("org/b", [])] :=
  ⟨by decide, by decide, mergeCrons_idempotent _ _ (by decide) (by decide)⟩

/-! ## C1 — granularity of the merge -/

/-- C1 counterexample: the pair `("r", "p2")` is present in the prior corpus
and absent from the newly discovered records, yet it does NOT remain in the
merged corpus: the merge of line 351 replaces repository `"r"`'s whole file
dict, so the prior entry is lost. -/
theorem mergeCrons_not_pair_granular :
    lookup2 [("r", [("p2", [[("cron", "0 0 * * *")]])])] "r" "p2" =
      some [[("cron", "0 0 * * *")]] ∧
    lookup2 [("r", ([] : FileMap))] "r" "p2" = none ∧
    lookup2 (mergeCrons [("r", [("p2", [[("cron", "0 0 * * *")]])])]
      [("r", ([] : FileMap))]) "r" "p2" = none :=
  ⟨rfl, rfl, rfl⟩

/-- C1 amended: the merge operates at *repository* granularity.  A repository
absent from the new records keeps its prior file map; a repository present in
the new records has its whole file map replaced by the new one (so prior
(repository, path) pairs under it survive only if re-discovered); repository
keys are never duplicated. -/
theorem mergeCrons_repo_granular (c n : Crons) (r : String) (hn : keysNodup n) :
    (lookupKV n r = none → lookupKV (mergeCrons c n) r = lookupKV c r) ∧
    (∀ fm, lookupKV n r = some fm → lookupKV (mergeCrons c n) r = some fm) ∧
    (keysNodup c → keysNodup (mergeCrons c n)) := by
  refine ⟨?_, ?_, keysNodup_dictUpdate n c⟩
  · intro h
    exact lookupKV_dictUpdate_not_mem n c r ((lookupKV_eq_none_iff n r).mp h)
  · intro fm h
    rw [mergeCrons, lookupKV_dictUpdate, lookupLast_eq_lookupKV n r hn, h]

/-- C1 witness: both merge behaviors at concrete corpora. -/
theorem mergeCrons_repo_granular_witness :
    keysNodup ([("r", [("new.yml", [])])] : Crons) ∧
    lookupKV (mergeCrons ([("q", [("old.yml", [])]), ("r", [("p2", [])])] : Crons)
      [("r", [("new.yml", [])])]) "q" = some [("old.yml", [])] ∧
    lookupKV (mergeCrons ([("q", [("old.yml", [])]), ("r", [("p2", [])])] : Crons)
      [("r", [("new.yml", [])])]) "r" = some [("new.yml", [])] :=
  ⟨by decide,
   by
    have h := (mergeCrons_repo_granular
      ([("q", [("old.yml", [])]), ("r", [("p2", [])])] : Crons)
      [("r", [("new.yml", [])])] "q" (by decide)).1 (by decide)
    rw [h]; rfl,
   (mergeCrons_repo_granular ([("q", [("old.yml", [])]), ("r", [("p2", [])])] : Crons)
      [("r", [("new.yml", [])])] "r" (by decide)).2.1 _ (by decide)⟩

/-! ## C5 — loading from an absent source -/

/-- C5 counterexample: on a file system without `data/crons.json`, the
loading step of `run_analysis` raises (models `FileNotFoundError` from
`open`), instead of yielding the empty corpus the claim promises. -/
theorem run_analysis_load_absent_counterexample :
    run_analysis_load (fun _ => none) = Except.error () ∧
    run_analysis_load (fun _ => none) ≠ Except.ok [] :=
  ⟨rfl, fun h => Except.noConfusion h⟩

/-- C5 amended: loading prior corpus state from an absent source raises an
uncaught exception and the run aborts; there is no first-run empty-corpus
fallback in `read_json` or `run_analysis`. -/
theorem run_analysis_load_absent (fs : String → Option Crons)
    (h : fs "data/crons.json" = none) :
    run_analysis_load fs = Except.error () := by
  rw [run_analysis_load, read_json, h]

/-- C5 witness. -/
theorem run_analysis_load_absent_witness :
    run_analysis_load (fun _ => none) = Except.error () :=
  run_analysis_load_absent (fun _ => none) rfl

/-! ## C6 — the rate limiter -/

/-- C6 counterexample: after module load stored reset timestamp `100`, a
later collaborator query observes reset timestamp `200`, but the program
still holds `100`: the quota-reset timestamp is NOT refreshed from the most
recent query (nothing ever reassigns `core_rate_limit` after line 40). -/
theorem stored_reset_not_refreshed :
    stored_reset 100 [200] = 100 ∧ stored_reset 100 [200] ≠ 200 :=
  ⟨rfl, by decide⟩

/-- C6 amended: the quota-reset timestamp is captured once at module load and
never refreshed by later queries; on invocation the computed sleep duration
is `max(0, reset - now) + 5` — `reset - now + 5` when the reset is still
ahead, the bare grace `5` otherwise, and always at least the grace `5`
(which meets the claim's `grace_seconds ≥ 5`) — and the caller is suspended
for exactly that duration (`time.sleep(sleep_time)`). -/
theorem rate_limit_stale_and_sleep (init : Int) (observed : List Int)
    (reset now : Int) :
    stored_reset init observed = init ∧
    (now ≤ reset → rate_limit_sleep reset now = reset - now + 5) ∧
    (reset ≤ now → rate_limit_sleep reset now = 5) ∧
    5 ≤ rate_limit_sleep reset now := by
  refine ⟨?_, ?_, ?_, ?_⟩
  · induction observed with
    | nil => rfl
    | cons o rest ih => exact ih
  · intro h
    rw [rate_limit_sleep]
    omega
  · intro h
    rw [rate_limit_sleep]
    omega
  · rw [rate_limit_sleep]
    omega

/-- C6 witness at concrete timestamps. -/
theorem rate_limit_stale_and_sleep_witness :
    stored_reset 100 [200, 300] = 100 ∧
    rate_limit_sleep 50 40 = 15 ∧
    rate_limit_sleep 40 50 = 5 :=
  ⟨(rate_limit_stale_and_sleep 100 [200, 300] 50 40).1,
   (rate_limit_stale_and_sleep 100 [200, 300] 50 40).2.1 (by omega),
   (rate_limit_stale_and_sleep 100 [200, 300] 40 50).2.2.1 (by omega)⟩

/-! ## C3 — staged persistence -/

/-- C3 counterexample: the frequency stage raises (the oracle rejects the
expression) so the run does not complete, yet `crons.json` has already been
written — persistence is not deferred until all processing completes. -/
theorem run_common_analysis_not_atomic :
    (run_common_analysis (fun _ => none) (fun _ => none) (fun _ => none)
        [("r", [("f", [[("cron", "0 0 * * *")]])])]).2 = false ∧
    (run_common_analysis (fun _ => none) (fun _ => none) (fun _ => none)
        [("r", [("f", [[("cron", "0 0 * * *")]])])]).1.map artifactName =
      ["crons.json"] :=
  ⟨rfl, rfl⟩

/-- C3 amended: persistence is staged, not atomic-at-end.  `crons.json` is
always the first write and happens before any aggregation; a completed run
writes all five artifacts in order; a run aborted by an aggregation
exception has already written exactly the artifacts of the completed stages
(`crons.json`, plus `frequencies.json` when the frequency stage completed). -/
theorem run_common_analysis_staged (delta : String → Option Nat)
    (pretty descOracle : String → Option String) (crons : Crons) :
    ((run_common_analysis delta pretty descOracle crons).1.map artifactName).take 1 =
      ["crons.json"] ∧
    ((run_common_analysis delta pretty descOracle crons).2 = true →
      (run_common_analysis delta pretty descOracle crons).1.map artifactName =
        ["crons.json", "frequencies.json", "times.json", "descriptions.json",
         "day_of_week.json"]) ∧
    ((run_common_analysis delta pretty descOracle crons).2 = false →
      (run_common_analysis delta pretty descOracle crons).1.map artifactName =
        ["crons.json"] ∨
      (run_common_analysis delta pretty descOracle crons).1.map artifactName =
        ["crons.json", "frequencies.json"]) := by
  cases hf : calculate_frequencies delta crons with
  | error e => simp [run_common_analysis, hf, artifactName]
  | ok out =>
    obtain ⟨crons', diffs⟩ := out
    cases ht : calculate_times_descriptions pretty descOracle crons' with
    | error e => simp [run_common_analysis, hf, ht, artifactName]
    | ok td =>
      obtain ⟨times, descriptions⟩ := td
      simp [run_common_analysis, hf, ht, artifactName]

/-- C3 witness: a run over the empty corpus completes and writes all five
artifacts with `crons.json` first. -/
theorem run_common_analysis_staged_witness :
    (run_common_analysis (fun _ => some 60) (fun _ => some "At 00:00")
        (fun _ => none) []).1.map artifactName =
      ["crons.json", "frequencies.json", "times.json", "descriptions.json",
       "day_of_week.json"] :=
  (run_common_analysis_staged (fun _ => some 60) (fun _ => some "At 00:00")
    (fun _ => none) []).2.1 rfl

/-! ## C7 — extraction without a trigger section -/

/-- C7 counterexample: a parsed workflow in which neither the boolean-True
trigger key nor the literal `"on"` key is present.  `key` stays `True`, so
`content[key]` raises `KeyError`, which reaches the blanket `except:` of the
caller: no record is added, but the case IS routed through the error path
(skip with an "Issue reading" diagnostic), not through a clean empty
result. -/
theorem extract_schedule_missing_key_counterexample :
    extract_schedule [(YKey.kStr "jobs", YVal.yStr "build")] = Except.error () :=
  rfl

/-- C7 amended: when a trigger key IS present (boolean-True checked first,
falling back to the literal `"on"`) and maps to a mapping without a
`"schedule"` subsection, extraction returns an empty result and no record is
added, with no exception raised; but when neither key is present the lookup
raises `KeyError`, handled as a skip-with-diagnostic by the caller (the
counterexample). -/
theorem extract_schedule_no_schedule (content m : List (YKey × YVal))
    (h : lookupKV content (YKey.kBool true) = some (YVal.yMap m) ∨
      (lookupKV content (YKey.kBool true) = none ∧
       lookupKV content (YKey.kStr "on") = some (YVal.yMap m)))
    (hs : lookupKV m (YKey.kStr "schedule") = none) :
    extract_schedule content = Except.ok none := by
  rcases h with h | ⟨h1, h2⟩
  · simp [extract_schedule, h, hs]
  · simp [extract_schedule, h1, h2, hs]

/-- C7 witness: a workflow whose `on:` section is an empty mapping yields a
clean empty result. -/
theorem extract_schedule_no_schedule_witness :
    extract_schedule [(YKey.kStr "on", YVal.yMap [])] = Except.ok none :=
  extract_schedule_no_schedule _ [] (Or.inr ⟨rfl, rfl⟩) rfl

/-! ## C2 / C4 — behavior of the frequency stage -/

theorem processFreqEntry_ok (delta : String → Option Nat) (e : Entry)
    (differences : List (Nat × Nat)) (h : entryValid delta e = true) :
    ∃ d', processFreqEntry delta e differences =
      Except.ok (normalizeEntry e, d') := by
  cases hc : lookupKV e "cron" with
  | none =>
    refine ⟨differences, ?_⟩
    simp [processFreqEntry, normalizeEntry, hc]
  | some c =>
    simp only [entryValid, hc] at h
    cases hd : delta (replaceQ c) with
    | none => rw [hd] at h; simp at h
    | some d =>
      refine ⟨bump differences d 1, ?_⟩
      simp [processFreqEntry, normalizeEntry, hc, hd]

theorem processFreqEntry_error (delta : String → Option Nat) (e : Entry)
    (differences : List (Nat × Nat)) (h : entryValid delta e = false) :
    processFreqEntry delta e differences = Except.error () := by
  cases hc : lookupKV e "cron" with
  | none => simp [entryValid, hc] at h
  | some c =>
    simp only [entryValid, hc] at h
    cases hd : delta (replaceQ c) with
    | some d => rw [hd] at h; simp [hd] at h
    | none => simp [processFreqEntry, hc, hd]

theorem processFreqList_spec (delta : String → Option Nat) (es : List Entry) :
    ∀ differences : List (Nat × Nat),
      (es.all (entryValid delta) = true →
        ∃ d', processFreqList delta es differences =
          Except.ok (es.map normalizeEntry, d')) ∧
      (es.all (entryValid delta) = false →
        processFreqList delta es differences = Except.error ()) := by
  induction es with
  | nil =>
    intro differences
    exact ⟨fun _ => ⟨differences, rfl⟩, fun h => by simp at h⟩
  | cons e rest ih =>
    intro differences
    cases hv : entryValid delta e with
    | false =>
      have he := processFreqEntry_error delta e differences hv
      constructor
      · intro hall
        simp [List.all_cons, hv] at hall
      · intro _
        simp [processFreqList, he, bind, Except.bind]
    | true =>
      obtain ⟨d', he⟩ := processFreqEntry_ok delta e differences hv
      constructor
      · intro hall
        simp only [List.all_cons, hv, Bool.true_and] at hall
        obtain ⟨d'', hr⟩ := (ih d').1 hall
        refine ⟨d'', ?_⟩
        simp [processFreqList, he, hr, bind, Except.bind]
      · intro hall
        simp only [List.all_cons, hv, Bool.true_and] at hall
        have hr := (ih d').2 hall
        simp [processFreqList, he, hr, bind, Except.bind]

theorem processFreqFiles_spec (delta : String → Option Nat) (fm : FileMap) :
    ∀ differences : List (Nat × Nat),
      (fm.all (fun fp => fp.2.all (entryValid delta)) = true →
        ∃ d', processFreqFiles delta fm differences =
          Except.ok (fm.map (fun fp => (fp.1, fp.2.map normalizeEntry)), d')) ∧
      (fm.all (fun fp => fp.2.all (entryValid delta)) = false →
        processFreqFiles delta fm differences = Except.error ()) := by
  induction fm with
  | nil =>
    intro differences
    exact ⟨fun _ => ⟨differences, rfl⟩, fun h => by simp at h⟩
  | cons fp rest ih =>
    intro differences
    obtain ⟨path, cronlist⟩ := fp
    cases hv : cronlist.all (entryValid delta) with
    | false =>
      have he := (processFreqList_spec delta cronlist differences).2 hv
      constructor
      · intro hall
        simp [List.all_cons, hv] at hall
      · intro _
        simp [processFreqFiles, he, bind, Except.bind]
    | true =>
      obtain ⟨d', he⟩ := (processFreqList_spec delta cronlist differences).1 hv
      constructor
      · intro hall
        simp only [List.all_cons, hv, Bool.true_and] at hall
        obtain ⟨d'', hr⟩ := (ih d').1 hall
        refine ⟨d'', ?_⟩
        simp [processFreqFiles, he, hr, bind, Except.bind]
      · intro hall
        simp only [List.all_cons, hv, Bool.true_and] at hall
        have hr := (ih d').2 hall
        simp [processFreqFiles, he, hr, bind, Except.bind]

theorem processFreqCrons_spec (delta : String → Option Nat) (crons : Crons) :
    ∀ differences : List (Nat × Nat),
      (allValidB delta crons = true →
        ∃ d', processFreqCrons delta crons differences =
          Except.ok (normalizeCrons crons, d')) ∧
      (allValidB delta crons = false →
        processFreqCrons delta crons differences = Except.error ()) := by
  induction crons with
  | nil =>
    intro differences
    exact ⟨fun _ => ⟨differences, rfl⟩, fun h => by simp [allValidB] at h⟩
  | cons rp rest ih =>
    intro differences
    obtain ⟨repo, files⟩ := rp
    cases hv : files.all (fun fp => fp.2.all (entryValid delta)) with
    | false =>
      have he := (processFreqFiles_spec delta files differences).2 hv
      constructor
      · intro hall
        simp [allValidB, List.all_cons, hv] at hall
      · intro _
        simp [processFreqCrons, he, bind, Except.bind]
    | true =>
      obtain ⟨d', he⟩ := (processFreqFiles_spec delta files differences).1 hv
      constructor
      · intro hall
        simp only [allValidB, List.all_cons, hv, Bool.true_and] at hall
        obtain ⟨d'', hr⟩ := (ih d').1 hall
        refine ⟨d'', ?_⟩
        simp [processFreqCrons, he, hr, normalizeCrons, bind, Except.bind]
      · intro hall
        simp only [allValidB, List.all_cons, hv, Bool.true_and] at hall
        have hr := (ih d').2 hall
        simp [processFreqCrons, he, hr, bind, Except.bind]

/-- C2 counterexample: a batch with one malformed expression (rejected by the
cron-iterator oracle) followed by a valid entry.  The malformed entry is not
skipped: `croniter` raises, nothing catches it, and the whole aggregation
aborts before the remaining entry is processed. -/
theorem calculate_frequencies_aborts :
    calculate_frequencies (fun s => if s = "0 0 * * *" then some 86400 else none)
      [("r", [("f", [[("cron", "not a cron")], [("cron", "0 0 * * *")]])])] =
      Except.error () :=
  rfl

/-- C2 amended: an entry lacking a `"cron"` key is skipped and the batch
continues, but an entry whose expression still fails validation after the
`?`→`*` normalization raises an uncaught exception that aborts the whole
aggregation: the frequency stage completes exactly when every cron-keyed
entry of the corpus validates. -/
theorem calculate_frequencies_ok_iff (delta : String → Option Nat)
    (crons : Crons) :
    exceptOk (calculate_frequencies delta crons) = allValidB delta crons := by
  cases hv : allValidB delta crons with
  | true =>
    obtain ⟨d', h⟩ := (processFreqCrons_spec delta crons []).1 hv
    simp [calculate_frequencies, h, exceptOk, bind, Except.bind]
  | false =>
    have h := (processFreqCrons_spec delta crons []).2 hv
    simp [calculate_frequencies, h, exceptOk, bind, Except.bind]

/-! ## C4 — the frequency stage mutates its input -/

/-- C4 counterexample: frequency derivation over a corpus whose entry has
cron string `"0 0 ? * *"` returns the corpus with that entry rewritten to
`"0 0 * * *"` — the in-place `entry["cron"] = entry["cron"].replace("?", "*")`
of line 206 modifies the snapshot, so the derivation is not a pure function
that leaves the corpus unchanged. -/
theorem calculate_frequencies_mutates :
    calculate_frequencies (fun _ => some 86400)
      [("r", [("f", [[("cron", "0 0 ? * *")]])])] =
      Except.ok ([("r", [("f", [[("cron", "0 0 * * *")]])])],
        { by_freq := [("1 days", 1)], by_count := [("1 days", 1)] }) ∧
    ([("r", [("f", [[("cron", "0 0 * * *")]])])] : Crons) ≠
      [("r", [("f", [[("cron", "0 0 ? * *")]])])] :=
  ⟨rfl, by decide⟩

/-- C4 amended: the statistics are deterministic functions of the snapshot
(given the same collaborator behavior), but the frequency stage writes back
into the corpus: whenever it completes, the corpus afterwards is exactly the
input with every cron-keyed entry's expression `?`→`*`-normalized in place
(so a corpus whose expressions contain no `?` is left unchanged). -/
theorem calculate_frequencies_mutation (delta : String → Option Nat)
    (crons c' : Crons) (diffs : FreqDiffs)
    (h : calculate_frequencies delta crons = Except.ok (c', diffs)) :
    c' = normalizeCrons crons := by
  cases hv : allValidB delta crons with
  | false =>
    have he := (processFreqCrons_spec delta crons []).2 hv
    rw [calculate_frequencies] at h
    simp [he, bind, Except.bind] at h
  | true =>
    obtain ⟨d', he⟩ := (processFreqCrons_spec delta crons []).1 hv
    rw [calculate_frequencies] at h
    simp only [he, bind, Except.bind, Except.ok.injEq, Prod.mk.injEq] at h
    exact h.1.symm

/-- C4 witness. -/
theorem calculate_frequencies_mutation_witness :
    calculate_frequencies (fun _ => some 86400)
      [("q", [("g", [[("cron", "0 5 ? * 1")]])])] =
      Except.ok ([("q", [("g", [[("cron", "0 5 * * 1")]])])],
        { by_freq := [("1 days", 1)], by_count := [("1 days", 1)] }) ∧
    ([("q", [("g", [[("cron", "0 5 * * 1")]])])] : Crons) =
      normalizeCrons [("q", [("g", [[("cron", "0 5 ? * 1")]])])] :=
  ⟨rfl,
   calculate_frequencies_mutation (fun _ => some 86400)
     [("q", [("g", [[("cron", "0 5 ? * 1")]])])]
     [("q", [("g", [[("cron", "0 5 * * 1")]])])]
     { by_freq := [("1 days", 1)], by_count := [("1 days", 1)] } rfl⟩

/-! ## C9 — failed repositories still become (empty) keys, and merging
erases their prior records -/

theorem lookupKV_append_single (m : List (κ × β)) (k' k : κ) (v : β) :
    lookupKV (m ++ [(k', v)]) k =
      match lookupKV m k with
      | some x => some x
      | none => if k' = k then some v else none := by
  induction m with
  | nil => simp [lookupKV]
  | cons p rest ih =>
    by_cases hp : p.1 = k
    · simp [lookupKV, hp]
    · simp [lookupKV, hp, ih]

theorem lookupKV_setFileRecord_ne (m : RawCrons) (repo path : String)
    (v : YVal) (r : String) (h : repo ≠ r) :
    lookupKV (setFileRecord m repo path v) r = lookupKV m r := by
  induction m with
  | nil => rfl
  | cons q rest ih =>
    have hcons : setFileRecord (q :: rest) repo path v =
        (if q.1 = repo then (q.1, setKV q.2 path v) else q) ::
          setFileRecord rest repo path v := rfl
    rw [hcons]
    by_cases hq : q.1 = repo
    · have hqr : ¬q.1 = r := fun e => h (hq.symm.trans e)
      rw [if_pos hq]
      show (if q.1 = r then some (setKV q.2 path v) else
        lookupKV (setFileRecord rest repo path v) r) =
        (if q.1 = r then some q.2 else lookupKV rest r)
      rw [if_neg hqr, if_neg hqr, ih]
    · rw [if_neg hq]
      show (if q.1 = r then some q.2 else
        lookupKV (setFileRecord rest repo path v) r) =
        (if q.1 = r then some q.2 else lookupKV rest r)
      by_cases hr : q.1 = r
      · rw [if_pos hr, if_pos hr]
      · rw [if_neg hr, if_neg hr, ih]

theorem keysOf_setFileRecord (m : RawCrons) (repo path : String) (v : YVal) :
    keysOf (setFileRecord m repo path v) = keysOf m := by
  induction m with
  | nil => rfl
  | cons q rest ih =>
    by_cases hq : q.1 = repo
    · simp [setFileRecord, keysOf, hq] at ih ⊢
      exact ih
    · simp [setFileRecord, keysOf, hq] at ih ⊢
      exact ih

theorem keysOf_download_step (acc : RawCrons) (hit : SearchHit) :
    keysOf (download_step acc hit) = keysOf acc ∨
    (hit.repo_full_name ∉ keysOf acc ∧
     keysOf (download_step acc hit) = keysOf acc ++ [hit.repo_full_name]) := by
  rw [download_step]
  cases hn : (lookupKV acc hit.repo_full_name).isNone with
  | false =>
    left
    simp only [hn, Bool.false_eq_true, if_false]
    cases hc : hit.clone_ok with
    | false => simp
    | true =>
      cases hp : hit.parsed with
      | none => simp
      | some content =>
        cases he : extract_schedule content with
        | error e => simp [he]
        | ok o =>
          cases o with
          | none => simp [he]
          | some s => simp [he, keysOf_setFileRecord]
  | true =>
    right
    have hmem : hit.repo_full_name ∉ keysOf acc := by
      rw [← lookupKV_eq_none_iff]
      cases hl : lookupKV acc hit.repo_full_name
      · rfl
      · rw [hl] at hn; exact Bool.noConfusion hn
    refine ⟨hmem, ?_⟩
    simp only [hn, if_true]
    have hkeys : keysOf (acc ++ [(hit.repo_full_name, ([] : RawFileMap))]) =
        keysOf acc ++ [hit.repo_full_name] := by
      simp [keysOf]
    have hlook : lookupKV (acc ++ [(hit.repo_full_name, ([] : RawFileMap))])
        hit.repo_full_name = some [] := by
      rw [lookupKV_append_single, (lookupKV_eq_none_iff acc _).mpr hmem, if_pos rfl]
    cases hc : hit.clone_ok with
    | false => simpa using hkeys
    | true =>
      cases hp : hit.parsed with
      | none => simpa using hkeys
      | some content =>
        cases he : extract_schedule content with
        | error e => simp [he, hkeys]
        | ok o =>
          cases o with
          | none => simp [he, hkeys]
          | some s => simp [he, keysOf_setFileRecord, hkeys]

theorem keysNodup_download_steps (hits : List SearchHit) :
    ∀ acc : RawCrons, keysNodup acc → keysNodup (hits.foldl download_step acc) := by
  induction hits with
  | nil => intro acc h; exact h
  | cons hit hits ih =>
    intro acc h
    rw [List.foldl_cons]
    refine ih (download_step acc hit) ?_
    rcases keysOf_download_step acc hit with hk | ⟨hm, hk⟩
    · rw [keysNodup, hk]; exact h
    · rw [keysNodup, hk]
      simpa [List.nodup_append] using ⟨h, hm⟩

theorem download_step_fail (acc : RawCrons) (hit : SearchHit)
    (hf : yieldsRecord hit = false) :
    download_step acc hit =
      if (lookupKV acc hit.repo_full_name).isNone then
        acc ++ [(hit.repo_full_name, [])] else acc := by
  rw [download_step]
  cases hn : (lookupKV acc hit.repo_full_name).isNone with
  | false =>
    simp only [hn, Bool.false_eq_true, if_false]
    cases hc : hit.clone_ok with
    | false => simp
    | true =>
      cases hp : hit.parsed with
      | none => simp
      | some content =>
        cases he : extract_schedule content with
        | error e => simp [he]
        | ok o =>
          cases o with
          | none => simp [he]
          | some s =>
            simp [yieldsRecord, hc, hp, he] at hf
  | true =>
    simp only [hn, if_true]
    cases hc : hit.clone_ok with
    | false => simp
    | true =>
      cases hp : hit.parsed with
      | none => simp
      | some content =>
        cases he : extract_schedule content with
        | error e => simp [he]
        | ok o =>
          cases o with
          | none => simp [he]
          | some s =>
            simp [yieldsRecord, hc, hp, he] at hf

theorem download_step_ne (acc : RawCrons) (hit : SearchHit) (r : String)
    (h : hit.repo_full_name ≠ r) :
    lookupKV (download_step acc hit) r = lookupKV acc r := by
  rw [download_step]
  have hacc1 : ∀ b : Bool,
      lookupKV (if b then acc ++ [(hit.repo_full_name, [])] else acc) r =
        lookupKV acc r := by
    intro b
    cases b with
    | false => rfl
    | true =>
      show lookupKV (acc ++ [(hit.repo_full_name, [])]) r = lookupKV acc r
      rw [lookupKV_append_single]
      cases hl : lookupKV acc r with
      | some v => rfl
      | none => simp [h]
  cases hc : hit.clone_ok with
  | false => simp only [Bool.false_eq_true, if_false]; exact hacc1 _
  | true =>
    simp only [if_true]
    cases hp : hit.parsed with
    | none => exact hacc1 _
    | some content =>
      cases he : extract_schedule content with
      | error e => simp only [he]; exact hacc1 _
      | ok o =>
        cases o with
        | none => simp only [he]; exact hacc1 _
        | some s =>
          simp only [he]
          rw [lookupKV_setFileRecord_ne _ _ _ _ _ h]
          exact hacc1 _

theorem download_repos_fail_lookup (r : String) :
    ∀ (hits : List SearchHit) (acc : RawCrons),
      (∀ hit ∈ hits, hit.repo_full_name = r → yieldsRecord hit = false) →
      lookupKV (hits.foldl download_step acc) r =
        match lookupKV acc r with
        | some v => some v
        | none =>
            if r ∈ hits.map (fun h => h.repo_full_name) then some [] else none := by
  intro hits
  induction hits with
  | nil =>
    intro acc _
    cases h : lookupKV acc r <;> simp [h]
  | cons hit hits ih =>
    intro acc hall
    rw [List.foldl_cons]
    have htail : ∀ h ∈ hits, h.repo_full_name = r → yieldsRecord h = false :=
      fun h hm hr2 => hall h (List.mem_cons_of_mem _ hm) hr2
    by_cases hr : hit.repo_full_name = r
    · have hf : yieldsRecord hit = false := hall hit (List.mem_cons_self _ _) hr
      rw [download_step_fail acc hit hf, hr]
      cases hacc : lookupKV acc r with
      | some v =>
        simp only [Option.isNone_some, Bool.false_eq_true, if_false]
        rw [ih acc htail, hacc]
      | none =>
        simp only [Option.isNone_none, if_true]
        have hlook : lookupKV (acc ++ [(r, ([] : RawFileMap))]) r = some [] := by
          rw [lookupKV_append_single, hacc, if_pos rfl]
        rw [ih (acc ++ [(r, [])]) htail, hlook]
        simp [hr]
    · have hstep := download_step_ne acc hit r hr
      rw [ih (download_step acc hit) htail, hstep]
      cases hacc : lookupKV acc r with
      | some v => rfl
      | none =>
        by_cases hm : r ∈ hits.map (fun h => h.repo_full_name)
        · have hm2 : r ∈ (hit :: hits).map (fun h => h.repo_full_name) := by
            rw [List.map_cons]
            exact List.mem_cons_of_mem _ hm
          show (if r ∈ hits.map (fun h => h.repo_full_name) then
              some ([] : RawFileMap) else none) =
            (if r ∈ (hit :: hits).map (fun h => h.repo_full_name) then
              some [] else none)
          rw [if_pos hm, if_pos hm2]
        · have hm2 : r ∉ (hit :: hits).map (fun h => h.repo_full_name) := by
            rw [List.map_cons, List.mem_cons]
            rintro (h1 | h2)
            · exact hr h1.symm
            · exact hm h2
          show (if r ∈ hits.map (fun h => h.repo_full_name) then
              some ([] : RawFileMap) else none) =
            (if r ∈ (hit :: hits).map (fun h => h.repo_full_name) then
              some [] else none)
          rw [if_neg hm, if_neg hm2]

/-- C9: every repository appearing in the search results becomes a key of
`download_repos`' result; when all of a repository's hits fail (clone error,
unreadable file, or no `schedule` subsection extracted) it is mapped to the
empty file dict, and merging that result into the prior corpus replaces the
repository's previously accumulated records by the empty mapping. -/
theorem download_repos_failed_repo (hits : List SearchHit) (r : String)
    (prior : RawCrons)
    (hmem : r ∈ hits.map (fun h => h.repo_full_name))
    (hall : ∀ hit ∈ hits, hit.repo_full_name = r → yieldsRecord hit = false) :
    lookupKV (download_repos hits) r = some [] ∧
    lookupKV (mergeCrons prior (download_repos hits)) r = some [] := by
  have h1 : lookupKV (download_repos hits) r = some [] := by
    rw [download_repos, download_repos_fail_lookup r hits [] hall]
    show (if r ∈ hits.map (fun h => h.repo_full_name) then some ([] : RawFileMap)
      else none) = some []
    rw [if_pos hmem]
  refine ⟨h1, ?_⟩
  have hnodup : keysNodup (download_repos hits) :=
    keysNodup_download_steps hits [] List.nodup_nil
  rw [mergeCrons, lookupKV_dictUpdate,
    lookupLast_eq_lookupKV _ _ hnodup, h1]

/-- C9 witness: a single hit whose clone fails; the repository still appears,
mapped to the empty dict, and the merge erases its prior record. -/
theorem download_repos_failed_repo_witness :
    lookupKV (download_repos
      [{ repo_full_name := "org/repo", path := "wf.yml", clone_ok := false,
         parsed := none }]) "org/repo" = some [] ∧
    lookupKV (mergeCrons [("org/repo", [("old.yml", YVal.yNull)])]
      (download_repos
        [{ repo_full_name := "org/repo", path := "wf.yml", clone_ok := false,
           parsed := none }])) "org/repo" = some [] :=
  download_repos_failed_repo
    [{ repo_full_name := "org/repo", path := "wf.yml", clone_ok := false,
       parsed := none }]
    "org/repo" [("org/repo", [("old.yml", YVal.yNull)])]
    (by decide) (by decide)

/-! ## C10 — colliding phrases in the frequency views: last write wins -/

theorem lookupKV_buildView (l : List (Nat × Nat)) (p : String) :
    lookupKV (buildView l) p =
      lookupLast (l.map (fun d => (convert_to_frequency d.1, d.2))) p := by
  have hb : buildView l =
      dictUpdate [] (l.map (fun d => (convert_to_frequency d.1, d.2))) := by
    simp only [buildView, dictUpdate, List.foldl_map]
  rw [hb, lookupKV_dictUpdate]
  cases lookupLast (l.map (fun d => (convert_to_frequency d.1, d.2))) p <;> rfl

/-- C10: in the frequency result, the value stored under a human-readable
phrase is the count of the *last* `(seconds, count)` pair — in the respective
sorted order of each view — whose seconds render to that phrase (the
repeated `diffs[...][human_readable] = diffset[1]` assignment of lines
222-227 overwrites earlier values), not the sum over all pairs rendering to
it. -/
theorem freq_views_last_wins (delta : String → Option Nat)
    (crons c' : Crons) (differences : List (Nat × Nat))
    (hp : processFreqCrons delta crons [] = Except.ok (c', differences))
    (p : String) :
    ∃ diffs : FreqDiffs,
      calculate_frequencies delta crons = Except.ok (c', diffs) ∧
      lookupKV diffs.by_freq p =
        lookupLast ((stableSort (fun a b => decide (b.1 ≤ a.1)) differences).map
          (fun d => (convert_to_frequency d.1, d.2))) p ∧
      lookupKV diffs.by_count p =
        lookupLast ((stableSort (fun a b => decide (b.2 ≤ a.2)) differences).map
          (fun d => (convert_to_frequency d.1, d.2))) p := by
  refine ⟨{ by_freq := buildView (stableSort (fun a b => decide (b.1 ≤ a.1)) differences),
            by_count := buildView (stableSort (fun a b => decide (b.2 ≤ a.2)) differences) },
    ?_, lookupKV_buildView _ p, lookupKV_buildView _ p⟩
  simp [calculate_frequencies, hp, bind, Except.bind]

/-- C10 witness: deltas 60 s (count 2) and 90 s (count 1) both render to
"1 minutes".  In `by_freq` (seconds descending) 60 is written last, so the
value is 2; in `by_count` (count descending) 90 is written last, so the
value is 1; neither view holds the sum 3. -/
theorem freq_views_last_wins_witness :
    convert_to_frequency 60 = "1 minutes" ∧
    convert_to_frequency 90 = "1 minutes" ∧
    calculate_frequencies
      (fun s => if s = "a" then some 60 else some 90)
      [("r", [("f", [[("cron", "a")], [("cron", "a")], [("cron", "b")]])])] =
      Except.ok ([("r", [("f", [[("cron", "a")], [("cron", "a")], [("cron", "b")]])])],
        { by_freq := [("1 minutes", 2)], by_count := [("1 minutes", 1)] }) ∧
    (∃ diffs : FreqDiffs,
      calculate_frequencies
        (fun s => if s = "a" then some 60 else some 90)
        [("r", [("f", [[("cron", "a")], [("cron", "a")], [("cron", "b")]])])] =
        Except.ok ([("r", [("f", [[("cron", "a")], [("cron", "a")], [("cron", "b")]])])],
          diffs) ∧
      lookupKV diffs.by_freq "1 minutes" =
        lookupLast ((stableSort (fun a b => decide (b.1 ≤ a.1))
          [(60, 2), (90, 1)]).map
          (fun d => (convert_to_frequency d.1, d.2))) "1 minutes" ∧
      lookupKV diffs.by_count "1 minutes" =
        lookupLast ((stableSort (fun a b => decide (b.2 ≤ a.2))
          [(60, 2), (90, 1)]).map
          (fun d => (convert_to_frequency d.1, d.2))) "1 minutes") :=
  ⟨rfl, rfl, rfl,
   freq_views_last_wins
     (fun s => if s = "a" then some 60 else some 90)
     [("r", [("f", [[("cron", "a")], [("cron", "a")], [("cron", "b")]])])]
     [("r", [("f", [[("cron", "a")], [("cron", "a")], [("cron", "b")]])])]
     [(60, 2), (90, 1)] rfl "1 minutes"⟩
